import Mathlib

/-!
Verification of the `smexperiments` metrics-writing subsystem and of the
`ApiObject` schema mapper, as a shallow embedding of
`src/smexperiments/metrics.py` and `src/smexperiments/_base_types.py`.

Machine integers do not occur: Python integers are unbounded, so `Nat`/`Int`
model them directly; float values are modelled by `ℚ` (every value the code
manipulates is produced by `float(...)` from user input and only stored and
compared, never rounded).
-/

namespace SMExperiments

/-! ### Metric data points (`_RawMetricData`)

A Python value passed as the `value` argument (or as a numeric `timestamp`)
of `log_metric`.  `float(v)` succeeds on ints, floats and numeric strings,
raises `ValueError` on other strings and `TypeError` on `None`. -/

inductive PyVal where
  | num (q : ℚ)
  | numStr (q : ℚ)
  | nonNumStr (s : String)
  | null
  deriving DecidableEq, Repr

/-- A fully validated metric record, as produced by `_RawMetricData.__init__`
with `record_type='API'` and sent on the wire by `to_record` (`MetricName`,
`Value`, `Timestamp` as a UTC instant in epoch seconds, optional
`IterationNumber`). -/
structure RawMetricData where
  metricName : String
  value : ℚ
  timestamp : ℚ
  iterationNumber : Option ℤ
  deriving DecidableEq, Repr

/-- A per-item error of a `batch_put_metrics` response, after the inbound
conversion of its fixed `{Code, Message, MetricIndex}` shape
(`api_types.BatchPutMetricsError`). -/
structure BatchError where
  code : String
  message : String
  metricIndex : ℕ
  deriving DecidableEq, Repr

/-- A `BatchPutMetricsError` after `_publish_metrics` has attached
`error.metric_value = metric_data[error.metric_index]`. -/
structure AttributedBatchError where
  code : String
  message : String
  metricIndex : ℕ
  metricValue : RawMetricData
  deriving DecidableEq, Repr

/-- The exceptions the embedded code can raise or record. -/
inductive MErr where
  | valueError
  | typeError
  | assertionError
  | closedWriter
  | attributeError
  | keyError
  | indexError
  | sinkFailure (msg : String)
  | batchPutErrors (errors : List AttributedBatchError)
  deriving DecidableEq, Repr

/-- Python `float(v)`. -/
def pyFloat : PyVal → Except MErr ℚ
  | .num q => .ok q
  | .numStr q => .ok q
  | .nonNumStr _ => .error .valueError
  | .null => .error .typeError

/-- The `timestamp` argument of `log_metric`: either a `datetime` (aware or
naive; the source normalises it to an aware UTC `datetime` denoting the same
instant, which we represent directly by that instant in epoch seconds — a
Python `datetime` always denotes an instant inside the representable range
below) or a number-like Python value fed through `float` and
`datetime.utcfromtimestamp`. -/
inductive TimestampArg where
  | dtime (epoch : ℚ)
  | tnum (v : PyVal)
  deriving DecidableEq, Repr

/-- Epoch seconds of `0001-01-01T00:00:00`, the smallest instant a Python
`datetime` can represent. -/
def MIN_DATETIME_EPOCH : ℚ := -62135596800

/-- Epoch seconds of `10000-01-01T00:00:00`, one step past the largest year
(9999) a Python `datetime` can represent. -/
def MAX_DATETIME_EPOCH : ℚ := 253402300800

/-- Conversion `datetime.datetime.utcfromtimestamp(ts)`: yields the instant
`ts` itself (as UTC epoch seconds), but raises `ValueError` when the instant
falls outside the `datetime`-representable range of years 1 to 9999 (for
example `utcfromtimestamp(10 ** 12)` raises `ValueError: year 33658 is out of
range`). -/
def utcFromTimestamp (ts : ℚ) : Except MErr ℚ :=
  if MIN_DATETIME_EPOCH ≤ ts ∧ ts < MAX_DATETIME_EPOCH then Except.ok ts
  else Except.error MErr.valueError

/-- The `iteration_number` argument: the source runs
`assert isinstance(iteration_number, int)`, so anything but an int raises
`AssertionError`. -/
inductive IterArg where
  | int (n : ℤ)
  | other
  deriving DecidableEq, Repr

/-- Constructor `_RawMetricData.__init__` (API record type), with `now` the
value of `datetime.datetime.utcnow()` in epoch seconds.  The source processes
the timestamp first (a numeric timestamp goes through `float` and then
`utcfromtimestamp`, whose representable-range check can raise `ValueError`),
then coerces the value with `float`, then asserts on the iteration number; no
check relates the timestamp to `now`. -/
def rawMetricData (metricName : String) (value : PyVal)
    (timestamp : Option TimestampArg) (iterationNumber : Option IterArg)
    (now : ℚ) : Except MErr RawMetricData :=
  match (match timestamp with
         | none => Except.ok now
         | some (.dtime e) => Except.ok e
         | some (.tnum v) =>
           match pyFloat v with
           | .error e => Except.error e
           | .ok f => utcFromTimestamp f : Except MErr ℚ) with
  | .error e => .error e
  | .ok ts =>
    match pyFloat value with
    | .error e => .error e
    | .ok v =>
      match (match iterationNumber with
             | none => Except.ok none
             | some (.int n) => Except.ok (some n)
             | some .other => Except.error MErr.assertionError :
             Except MErr (Option ℤ)) with
      | .error e => .error e
      | .ok iter => .ok ⟨metricName, v, ts, iter⟩

/-! ### The work queue and the background drain -/

/-- An element of `_work_queue`: a real data point, or the poison pill
`_terminate_message` (an int, never equal to a `_RawMetricData`). -/
inductive QItem where
  | metric (d : RawMetricData)
  | pill
  deriving DecidableEq, Repr

def BATCH_MAX_SIZE : ℕ := 10

def QUEUE_SIZE : ℕ := 3 * BATCH_MAX_SIZE

/-- Real data points of a list of queue items, in order. -/
def realMetrics (xs : List QItem) : List RawMetricData :=
  xs.filterMap fun i =>
    match i with
    | .metric d => some d
    | .pill => none

/-- Method `_get_items_from_queue`, acting on the queue contents `q` (front
first), which the blocking first `get()` requires to be non-empty.  One
blocking `get` plus at most `BATCH_MAX_SIZE - 1` successful `get_nowait`s
drain the first `min BATCH_MAX_SIZE q.length` items; if the pill is among them
it is removed (`items.remove`, first occurrence) and `_should_terminate` is
set.  Returns `(items, remaining queue, _should_terminate)`. -/
def getItemsFromQueue (q : List QItem) : List QItem × List QItem × Bool :=
  let drained := q.take BATCH_MAX_SIZE
  let term := decide (QItem.pill ∈ drained)
  let items := if QItem.pill ∈ drained then drained.erase QItem.pill else drained
  (items, q.drop BATCH_MAX_SIZE, term)

/-- Value of the `Errors` field of a `batch_put_metrics` response: `none` when
the key is absent altogether, `some none` when present with value `None`,
`some (some l)` when present with a list. -/
structure SinkResponse where
  errorsField : Option (Option (List BatchError))
  deriving DecidableEq, Repr

/-- Behaviour of one `batch_put_metrics` call: a raised exception or a
response. -/
abbrev Sink := List RawMetricData → Except MErr SinkResponse

/-- Loop body of `for error in result['Errors']`: convert each error inbound
and attach `metric_data[error.metric_index]`; an out-of-range index raises
`IndexError`, aborting the loop. -/
def attributeErrors (errs : List BatchError) (metricData : List RawMetricData) :
    Except MErr (List AttributedBatchError) :=
  errs.mapM fun e =>
    match metricData[e.metricIndex]? with
    | some d => Except.ok ⟨e.code, e.message, e.metricIndex, d⟩
    | none => Except.error MErr.indexError

/-- The part of the `try` body of `_publish_metrics` that follows the sink
call: `result['Errors']` raises `KeyError` when the key is absent; a present
but falsy (`None` or empty) value leaves `_last_exception` alone; a non-empty
list is wrapped into `SageMakerMetricsWriterException` with attributed
errors. -/
def processResponse (resp : Except MErr SinkResponse)
    (metricData : List RawMetricData) (lastExc : Option MErr) : Option MErr :=
  match resp with
  | .error ex => some ex
  | .ok result =>
    match result.errorsField with
    | none => some MErr.keyError
    | some none => lastExc
    | some (some []) => lastExc
    | some (some (e :: es)) =>
      match attributeErrors (e :: es) metricData with
      | .error ex => some ex
      | .ok attributed => some (MErr.batchPutErrors attributed)

/-- Conversion `item.to_record()` on a queue item: on the pill, an int, the
attribute access raises `AttributeError` (caught by the `try` block of
`_publish_metrics` like any other exception). -/
def toRecord (i : QItem) : Except MErr RawMetricData :=
  match i with
  | QItem.metric d => Except.ok d
  | QItem.pill => Except.error MErr.attributeError

/-- Result of one cycle of `_publish_metrics` on a non-empty queue. -/
structure CycleResult where
  submitted : List RawMetricData
  lastException : Option MErr
  queueAfter : List QItem
  shouldTerminate : Bool
  deriving DecidableEq, Repr

/-- One cycle of `_publish_metrics` on queue contents `q` (non-empty —
otherwise the blocking `get` waits): drain a batch, and when it is non-empty
convert every item with `to_record` (on the pill, an int, this would raise
`AttributeError`, caught like every exception of the `try` block) and submit
the records as one sink call.  `submitted` is the record list passed to the
sink (empty when no call was made). -/
def publishMetrics (sink : Sink) (lastExc : Option MErr) (q : List QItem) :
    CycleResult :=
  if (getItemsFromQueue q).1.isEmpty then
    ⟨[], lastExc, (getItemsFromQueue q).2.1, (getItemsFromQueue q).2.2⟩
  else
    match (getItemsFromQueue q).1.mapM toRecord with
    | .error e => ⟨[], some e, (getItemsFromQueue q).2.1, (getItemsFromQueue q).2.2⟩
    | .ok metricData =>
      ⟨metricData, processResponse (sink metricData) metricData lastExc,
       (getItemsFromQueue q).2.1, (getItemsFromQueue q).2.2⟩

/-! ### Caller-side operations (`log_metric`, `close`) -/

/-- Caller-visible state of a `SageMakerMetricsWriter`: `workQueue` is `none`
once `close()` has set `self._work_queue = None`. -/
structure WriterState where
  workQueue : Option (List QItem)
  closed : Bool
  deriving DecidableEq, Repr

/-- Outcome of a `log_metric` call.  `raised` leaves the writer untouched (the
exception fires before `put` runs); `enqueued` carries the new queue contents;
`blocked` is a caller waiting on a full bounded queue (backpressure). -/
inductive LogOutcome where
  | raised (e : MErr)
  | enqueued (newQueue : List QItem)
  | blocked
  deriving DecidableEq, Repr

/-- Method `log_metric`.  Python evaluates the callee `self._work_queue.put`
before the argument expression, so on a closed writer (`_work_queue is None`)
the `AttributeError` fires before `_RawMetricData` validation runs and the
handler turns it into the closed-writer `SageMakerMetricsWriterException`;
on an open writer a validation exception propagates (it is not an
`AttributeError`) before anything is enqueued. -/
def logMetric (st : WriterState) (metricName : String) (value : PyVal)
    (timestamp : Option TimestampArg) (iterationNumber : Option IterArg)
    (now : ℚ) : LogOutcome :=
  match st.workQueue with
  | none =>
    if st.closed then .raised MErr.closedWriter else .raised MErr.attributeError
  | some q =>
    match rawMetricData metricName value timestamp iterationNumber now with
    | .error e => .raised e
    | .ok d =>
      if q.length < QUEUE_SIZE then .enqueued (q ++ [QItem.metric d])
      else .blocked

/-- Exception raised by `close()` after the worker has been joined:
`if self.raise_on_close and self.has_error: raise self.last_error`. -/
def closeRaises (raiseOnClose : Bool) (lastExc : Option MErr) : Option MErr :=
  if raiseOnClose then lastExc else none

/-- State fields a completed `close()` leaves behind: `_closed = True` and
`_work_queue = None`. -/
def ClosedState (st : WriterState) : Prop :=
  st.closed = true ∧ st.workQueue = none

/-! ### The producer/consumer system

One caller thread runs `QUEUE_SIZE + 1` valid `log_metric` calls and then
`close()` (which enqueues the pill); the worker thread interleaves
`_publish_metrics` cycles.  `pending` is the stream the caller has yet to
enqueue (pill last); `queue` is the bounded FIFO; `submitted` counts records
passed to the sink across all calls. -/

structure Sys where
  pending : List QItem
  queue : List QItem
  submitted : ℕ
  lastException : Option MErr
  terminated : Bool
  deriving DecidableEq, Repr

/-- Consumer result applied to a system state: one `_publish_metrics` cycle
followed by the `_should_terminate` check of `_publish_loop`. -/
def consumeSys (sink : Sink) (s : Sys) : Sys :=
  let r := publishMetrics sink s.lastException s.queue
  { s with
    queue := r.queueAfter
    submitted := s.submitted + r.submitted.length
    lastException := r.lastException
    terminated := r.shouldTerminate }

/-- Interleaving of the caller and the worker, one step at a time.  The caller
can complete a blocking `put` whenever the queue holds fewer than `QUEUE_SIZE`
items; the worker can run a cycle whenever it has not returned and its
blocking `get` can proceed. -/
inductive Step (sink : Sink) : Sys → Sys → Prop where
  | produce (s : Sys) (x : QItem) (rest : List QItem)
      (hp : s.pending = x :: rest) (hroom : s.queue.length < QUEUE_SIZE) :
      Step sink s { s with pending := rest, queue := s.queue ++ [x] }
  | consume (s : Sys) (hrun : s.terminated = false) (hne : s.queue ≠ []) :
      Step sink s (consumeSys sink s)

/-- Initial state for `metrics` data points logged before `close()`. -/
def initSys (metrics : List RawMetricData) : Sys :=
  { pending := metrics.map QItem.metric ++ [QItem.pill]
    queue := []
    submitted := 0
    lastException := none
    terminated := false }

/-- A sink call succeeds: no exception, and a response whose `Errors` field is
present and falsy (value `None` or the empty list). -/
def GoodSink (sink : Sink) : Prop :=
  ∀ d, ∃ r, sink d = Except.ok r ∧
    (r.errorsField = some none ∨ r.errorsField = some (some []))

/-- The always-succeeding sink used as a concrete witness. -/
def okSink : Sink := fun _ => Except.ok ⟨some (some [])⟩

theorem okSink_good : GoodSink okSink := by
  intro d
  exact ⟨⟨some (some [])⟩, rfl, Or.inr rfl⟩

/-- Run invariant for `initSys metrics` with `N = metrics.length`: no error has
been recorded, and either the worker has terminated with everything drained
and submitted, or the not-yet-submitted stream is some metric list followed by
the pill. -/
def Inv (N : ℕ) (s : Sys) : Prop :=
  s.lastException = none ∧
  (s.terminated = true → s.queue = [] ∧ s.pending = [] ∧ s.submitted = N) ∧
  (s.terminated = false → ∃ ms : List RawMetricData,
    s.queue ++ s.pending = ms.map QItem.metric ++ [QItem.pill] ∧
    ms.length + s.submitted = N)

/-- Deterministic scheduler: prefer a `produce` step when the caller can make
one, else a `consume` step, else stay put. -/
def schedStep (sink : Sink) (s : Sys) : Sys :=
  if s.terminated = true then s
  else
    match s.pending with
    | x :: rest =>
      if s.queue.length < QUEUE_SIZE then
        { s with pending := rest, queue := s.queue ++ [x] }
      else consumeSys sink s
    | [] =>
      if s.queue.isEmpty then s else consumeSys sink s

/-- Iterate the scheduler. -/
def exec (sink : Sink) : ℕ → Sys → Sys
  | 0, s => s
  | n + 1, s => exec sink n (schedStep sink s)

/-! ### Basic lemmas about the drain and the publish cycle -/

theorem realMetrics_nil : realMetrics [] = [] := rfl

theorem realMetrics_cons_metric (d : RawMetricData) (xs : List QItem) :
    realMetrics (QItem.metric d :: xs) = d :: realMetrics xs := rfl

theorem realMetrics_cons_pill (xs : List QItem) :
    realMetrics (QItem.pill :: xs) = realMetrics xs := rfl

/-- Erasing the pill does not change the real data points of a batch. -/
theorem realMetrics_erase_pill (xs : List QItem) :
    realMetrics (xs.erase QItem.pill) = realMetrics xs := by
  induction xs with
  | nil => rfl
  | cons x t ih =>
    cases x with
    | metric d =>
      rw [List.erase_cons_tail, realMetrics_cons_metric, realMetrics_cons_metric, ih]
      simp
    | pill =>
      rw [List.erase_cons_head, realMetrics_cons_pill]

theorem mapM_toRecord_of_no_pill (xs : List QItem) (h : QItem.pill ∉ xs) :
    xs.mapM toRecord = Except.ok (realMetrics xs) := by
  induction xs with
  | nil => rfl
  | cons x t ih =>
    cases x with
    | metric d =>
      have ht : QItem.pill ∉ t := fun hm => h (List.mem_cons_of_mem _ hm)
      rw [List.mapM_cons, ih ht]
      rfl
    | pill => exact absurd (List.mem_cons_self _ _) h

theorem getItems_items (q : List QItem) :
    (getItemsFromQueue q).1 =
      if QItem.pill ∈ q.take BATCH_MAX_SIZE
      then (q.take BATCH_MAX_SIZE).erase QItem.pill
      else q.take BATCH_MAX_SIZE := rfl

theorem getItems_queueAfter (q : List QItem) :
    (getItemsFromQueue q).2.1 = q.drop BATCH_MAX_SIZE := rfl

theorem getItems_term (q : List QItem) :
    (getItemsFromQueue q).2.2 =
      decide (QItem.pill ∈ q.take BATCH_MAX_SIZE) := rfl

/-- When the drained batch (after pill removal) holds no pill, each item
converts via `to_record` and the whole batch is passed to one sink call. -/
theorem publishMetrics_no_pill (sink : Sink) (lastExc : Option MErr)
    (q : List QItem) (h : QItem.pill ∉ (getItemsFromQueue q).1) :
    publishMetrics sink lastExc q =
      ⟨realMetrics (getItemsFromQueue q).1,
       if (getItemsFromQueue q).1.isEmpty then lastExc
       else
         processResponse (sink (realMetrics (getItemsFromQueue q).1))
           (realMetrics (getItemsFromQueue q).1) lastExc,
       (getItemsFromQueue q).2.1,
       (getItemsFromQueue q).2.2⟩ := by
  unfold publishMetrics
  rcases hempty : (getItemsFromQueue q).1 with _ | ⟨x, t⟩
  · simp [hempty, realMetrics_nil]
  · rw [hempty] at h
    rw [mapM_toRecord_of_no_pill _ h]
    simp

theorem pill_not_mem_items_of_count (q : List QItem)
    (hcount : q.count QItem.pill ≤ 1) :
    QItem.pill ∉ (getItemsFromQueue q).1 := by
  rw [getItems_items]
  by_cases hmem : QItem.pill ∈ q.take BATCH_MAX_SIZE
  · rw [if_pos hmem]
    intro hc
    have h1 := List.count_erase_self QItem.pill (q.take BATCH_MAX_SIZE)
    have h3 : (q.take BATCH_MAX_SIZE).count QItem.pill ≤ q.count QItem.pill :=
      (List.take_sublist _ _).count_le _
    have h4 := List.count_pos_iff.mpr hc
    omega
  · rw [if_neg hmem]
    exact hmem

/-- C1: on a non-empty queue holding at most one pill, a drained batch has
between 1 and `BATCH_MAX_SIZE` items; when the pill is among them it is
removed, the remaining real data points of that same batch are still the ones
submitted to the sink, and `_should_terminate` is set so `_publish_loop`
returns after this flush; otherwise the loop continues. -/
theorem drain_batch_bounds_and_pill (q : List QItem) (sink : Sink)
    (lastExc : Option MErr) (hq : q ≠ []) (hcount : q.count QItem.pill ≤ 1) :
    1 ≤ (q.take BATCH_MAX_SIZE).length ∧
    (q.take BATCH_MAX_SIZE).length ≤ BATCH_MAX_SIZE ∧
    (QItem.pill ∈ q.take BATCH_MAX_SIZE →
      (publishMetrics sink lastExc q).shouldTerminate = true ∧
      (publishMetrics sink lastExc q).submitted =
        realMetrics ((q.take BATCH_MAX_SIZE).erase QItem.pill) ∧
      realMetrics ((q.take BATCH_MAX_SIZE).erase QItem.pill) =
        realMetrics (q.take BATCH_MAX_SIZE)) ∧
    (QItem.pill ∉ q.take BATCH_MAX_SIZE →
      (publishMetrics sink lastExc q).shouldTerminate = false ∧
      (publishMetrics sink lastExc q).submitted =
        realMetrics (q.take BATCH_MAX_SIZE)) := by
  have hql : 0 < q.length := List.length_pos.mpr hq
  have hlen := List.length_take BATCH_MAX_SIZE q
  have hnp := pill_not_mem_items_of_count q hcount
  have hpub := publishMetrics_no_pill sink lastExc q hnp
  refine ⟨by rw [hlen]; unfold BATCH_MAX_SIZE; omega,
          by rw [hlen]; omega, ?_, ?_⟩
  · intro hmem
    have hitems : (getItemsFromQueue q).1 =
        (q.take BATCH_MAX_SIZE).erase QItem.pill := by
      rw [getItems_items, if_pos hmem]
    refine ⟨?_, ?_, realMetrics_erase_pill _⟩
    · rw [hpub]
      simp [getItems_term, hmem]
    · rw [hpub]
      simp [hitems]
  · intro hmem
    have hitems : (getItemsFromQueue q).1 = q.take BATCH_MAX_SIZE := by
      rw [getItems_items, if_neg hmem]
    constructor
    · rw [hpub]
      simp [getItems_term, hmem]
    · rw [hpub]
      simp [hitems]

/-- Concrete instance of `drain_batch_bounds_and_pill`: a queue holding one
data point and the pill. -/
theorem drain_batch_bounds_and_pill_witness :
    ([QItem.metric ⟨"a", 1, 2, none⟩, QItem.pill] : List QItem) ≠ [] ∧
    ([QItem.metric ⟨"a", 1, 2, none⟩, QItem.pill] : List QItem).count QItem.pill ≤ 1 ∧
    (1 ≤ (([QItem.metric ⟨"a", 1, 2, none⟩, QItem.pill] :
        List QItem).take BATCH_MAX_SIZE).length ∧
     (([QItem.metric ⟨"a", 1, 2, none⟩, QItem.pill] :
        List QItem).take BATCH_MAX_SIZE).length ≤ BATCH_MAX_SIZE ∧
     (QItem.pill ∈ ([QItem.metric ⟨"a", 1, 2, none⟩, QItem.pill] :
        List QItem).take BATCH_MAX_SIZE →
       (publishMetrics okSink none
          [QItem.metric ⟨"a", 1, 2, none⟩, QItem.pill]).shouldTerminate = true ∧
       (publishMetrics okSink none
          [QItem.metric ⟨"a", 1, 2, none⟩, QItem.pill]).submitted =
         realMetrics ((([QItem.metric ⟨"a", 1, 2, none⟩, QItem.pill] :
           List QItem).take BATCH_MAX_SIZE).erase QItem.pill) ∧
       realMetrics ((([QItem.metric ⟨"a", 1, 2, none⟩, QItem.pill] :
           List QItem).take BATCH_MAX_SIZE).erase QItem.pill) =
         realMetrics (([QItem.metric ⟨"a", 1, 2, none⟩, QItem.pill] :
           List QItem).take BATCH_MAX_SIZE)) ∧
     (QItem.pill ∉ ([QItem.metric ⟨"a", 1, 2, none⟩, QItem.pill] :
        List QItem).take BATCH_MAX_SIZE →
       (publishMetrics okSink none
          [QItem.metric ⟨"a", 1, 2, none⟩, QItem.pill]).shouldTerminate = false ∧
       (publishMetrics okSink none
          [QItem.metric ⟨"a", 1, 2, none⟩, QItem.pill]).submitted =
         realMetrics (([QItem.metric ⟨"a", 1, 2, none⟩, QItem.pill] :
           List QItem).take BATCH_MAX_SIZE))) :=
  ⟨by decide, by decide,
   drain_batch_bounds_and_pill _ okSink none (by decide) (by decide)⟩

/-- C4: after `close()` has completed (`_closed = True`, `_work_queue = None`),
every `log_metric` call raises the closed-writer
`SageMakerMetricsWriterException`, regardless of its arguments: Python
evaluates `self._work_queue.put` before the argument, so the `AttributeError`
fires before any validation and the handler re-raises it as the closed-writer
error. -/
theorem log_metric_after_close_raises_closed (st : WriterState)
    (h : ClosedState st) (name : String) (value : PyVal)
    (ts : Option TimestampArg) (iter : Option IterArg) (now : ℚ) :
    logMetric st name value ts iter now = LogOutcome.raised MErr.closedWriter := by
  obtain ⟨hc, hqn⟩ := h
  unfold logMetric
  rw [hqn, hc]
  simp

/-- Concrete instance of `log_metric_after_close_raises_closed`: a call with a
non-numeric value and a non-integer iteration number on a closed writer still
raises the closed-writer error, not a validation error. -/
theorem log_metric_after_close_raises_closed_witness :
    ClosedState ⟨none, true⟩ ∧
    logMetric ⟨none, true⟩ "m" (PyVal.nonNumStr "oops") none
        (some IterArg.other) 0 = LogOutcome.raised MErr.closedWriter :=
  ⟨⟨rfl, rfl⟩,
   log_metric_after_close_raises_closed ⟨none, true⟩ ⟨rfl, rfl⟩ "m"
     (PyVal.nonNumStr "oops") none (some IterArg.other) 0⟩

theorem rawMetricData_error_of_bad (name : String) (value : PyVal)
    (ts : Option TimestampArg) (iter : Option IterArg) (now : ℚ)
    (hbad : (∃ e, pyFloat value = Except.error e) ∨ iter = some IterArg.other) :
    ∃ e, rawMetricData name value ts iter now = Except.error e ∧
      (e = MErr.valueError ∨ e = MErr.typeError ∨ e = MErr.assertionError) := by
  rcases hbad with ⟨e, he⟩ | hio
  · cases value with
    | num q => simp [pyFloat] at he
    | numStr q => simp [pyFloat] at he
    | nonNumStr s =>
      rcases ts with _ | t
      · simp [rawMetricData, pyFloat]
      · cases t with
        | dtime e0 => simp [rawMetricData, pyFloat]
        | tnum v0 =>
          cases v0 with
          | num q0 =>
            by_cases hr : MIN_DATETIME_EPOCH ≤ q0 ∧ q0 < MAX_DATETIME_EPOCH <;>
              simp [rawMetricData, pyFloat, utcFromTimestamp, hr]
          | numStr q0 =>
            by_cases hr : MIN_DATETIME_EPOCH ≤ q0 ∧ q0 < MAX_DATETIME_EPOCH <;>
              simp [rawMetricData, pyFloat, utcFromTimestamp, hr]
          | nonNumStr s2 => simp [rawMetricData, pyFloat]
          | null => simp [rawMetricData, pyFloat]
    | null =>
      rcases ts with _ | t
      · simp [rawMetricData, pyFloat]
      · cases t with
        | dtime e0 => simp [rawMetricData, pyFloat]
        | tnum v0 =>
          cases v0 with
          | num q0 =>
            by_cases hr : MIN_DATETIME_EPOCH ≤ q0 ∧ q0 < MAX_DATETIME_EPOCH <;>
              simp [rawMetricData, pyFloat, utcFromTimestamp, hr]
          | numStr q0 =>
            by_cases hr : MIN_DATETIME_EPOCH ≤ q0 ∧ q0 < MAX_DATETIME_EPOCH <;>
              simp [rawMetricData, pyFloat, utcFromTimestamp, hr]
          | nonNumStr s2 => simp [rawMetricData, pyFloat]
          | null => simp [rawMetricData, pyFloat]
  · subst hio
    rcases ts with _ | t
    · cases value <;> simp [rawMetricData, pyFloat]
    · cases t with
      | dtime e0 => cases value <;> simp [rawMetricData, pyFloat]
      | tnum v0 =>
        cases v0 with
        | num q0 =>
          by_cases hr : MIN_DATETIME_EPOCH ≤ q0 ∧ q0 < MAX_DATETIME_EPOCH <;>
            cases value <;>
            simp [rawMetricData, pyFloat, utcFromTimestamp, hr]
        | numStr q0 =>
          by_cases hr : MIN_DATETIME_EPOCH ≤ q0 ∧ q0 < MAX_DATETIME_EPOCH <;>
            cases value <;>
            simp [rawMetricData, pyFloat, utcFromTimestamp, hr]
        | nonNumStr s2 => cases value <;> simp [rawMetricData, pyFloat]
        | null => cases value <;> simp [rawMetricData, pyFloat]

/-- C5 counterexample: no validity window around "now" is enforced.  With the
current time at epoch 1760227200 (October 2026), a data point with numeric
timestamp 0 (January 1970, about 56 years in the past, hence outside any
bounded "not more than N days in the past" window around now) is enqueued
without any error: `_RawMetricData.__init__` performs no comparison of the
timestamp with the current time at all — the only timestamp check is
`utcfromtimestamp`'s fixed representable range (years 1 to 9999), which is
independent of `now`. -/
theorem log_metric_no_timestamp_window_counterexample :
    logMetric ⟨some [], false⟩ "loss" (PyVal.num 1)
        (some (TimestampArg.tnum (PyVal.num 0))) none 1760227200 =
      LogOutcome.enqueued [QItem.metric ⟨"loss", 1, 0, none⟩] := by
  rfl

/-- C5 (corrected): on an open writer, a malformed data point — non-numeric
value, non-integer iteration number, or numeric timestamp outside the
`datetime`-representable range of years 1 to 9999 (where `utcfromtimestamp`
raises `ValueError`) — makes `log_metric` raise a validation error
synchronously to the caller before anything is enqueued (a `raised` outcome
leaves the queue untouched: the exception fires while the argument of `put`
is being evaluated).  No validity window around `now` is enforced, however:
every numeric timestamp inside the representable range is accepted no matter
how far from `now`. -/
theorem log_metric_validation_synchronous (q : List QItem) (name : String)
    (value : PyVal) (ts : Option TimestampArg) (iter : Option IterArg)
    (now t tbad : ℚ) (hql : q.length < QUEUE_SIZE)
    (hbad : (∃ e, pyFloat value = Except.error e) ∨ iter = some IterArg.other)
    (ht : MIN_DATETIME_EPOCH ≤ t ∧ t < MAX_DATETIME_EPOCH)
    (htbad : ¬(MIN_DATETIME_EPOCH ≤ tbad ∧ tbad < MAX_DATETIME_EPOCH)) :
    (∃ e, logMetric ⟨some q, false⟩ name value ts iter now = LogOutcome.raised e ∧
      (e = MErr.valueError ∨ e = MErr.typeError ∨ e = MErr.assertionError)) ∧
    logMetric ⟨some q, false⟩ name (PyVal.num 1)
        (some (TimestampArg.tnum (PyVal.num tbad))) none now =
      LogOutcome.raised MErr.valueError ∧
    logMetric ⟨some q, false⟩ name (PyVal.num 1)
        (some (TimestampArg.tnum (PyVal.num t))) none now =
      LogOutcome.enqueued (q ++ [QItem.metric ⟨name, 1, t, none⟩]) := by
  refine ⟨?_, ?_, ?_⟩
  · obtain ⟨e, he, hset⟩ := rawMetricData_error_of_bad name value ts iter now hbad
    refine ⟨e, ?_, hset⟩
    unfold logMetric
    rw [he]
  · unfold logMetric
    have hbadts : rawMetricData name (PyVal.num 1)
        (some (TimestampArg.tnum (PyVal.num tbad))) none now =
        Except.error MErr.valueError := by
      simp [rawMetricData, pyFloat, utcFromTimestamp, htbad]
    rw [hbadts]
  · unfold logMetric
    have hok : rawMetricData name (PyVal.num 1)
        (some (TimestampArg.tnum (PyVal.num t))) none now =
        Except.ok ⟨name, 1, t, none⟩ := by
      simp [rawMetricData, pyFloat, utcFromTimestamp, ht]
    rw [hok]
    simp [hql]

/-- Concrete instance of `log_metric_validation_synchronous`: a non-numeric
value on an open empty-queue writer, the in-range timestamp 12345 and the
out-of-range timestamp `10 ** 12` (year 33658). -/
theorem log_metric_validation_synchronous_witness :
    (([] : List QItem).length < QUEUE_SIZE) ∧
    ((∃ e, pyFloat (PyVal.nonNumStr "nan?") = Except.error e) ∨
      (none : Option IterArg) = some IterArg.other) ∧
    (MIN_DATETIME_EPOCH ≤ (12345 : ℚ) ∧ (12345 : ℚ) < MAX_DATETIME_EPOCH) ∧
    ¬(MIN_DATETIME_EPOCH ≤ (1000000000000 : ℚ) ∧
      (1000000000000 : ℚ) < MAX_DATETIME_EPOCH) ∧
    ((∃ e, logMetric ⟨some [], false⟩ "m" (PyVal.nonNumStr "nan?") none none 5 =
        LogOutcome.raised e ∧
        (e = MErr.valueError ∨ e = MErr.typeError ∨ e = MErr.assertionError)) ∧
     logMetric ⟨some [], false⟩ "m" (PyVal.num 1)
         (some (TimestampArg.tnum (PyVal.num 1000000000000))) none 5 =
       LogOutcome.raised MErr.valueError ∧
     logMetric ⟨some [], false⟩ "m" (PyVal.num 1)
         (some (TimestampArg.tnum (PyVal.num 12345))) none 5 =
       LogOutcome.enqueued ([] ++ [QItem.metric ⟨"m", 1, 12345, none⟩])) :=
  ⟨by decide, Or.inl ⟨MErr.valueError, rfl⟩, by decide, by decide,
   log_metric_validation_synchronous [] "m" (PyVal.nonNumStr "nan?") none none 5
     12345 1000000000000 (by decide) (Or.inl ⟨MErr.valueError, rfl⟩)
     (by decide) (by decide)⟩

theorem pill_not_mem_items_of_not_mem (q : List QItem)
    (hpill : QItem.pill ∉ q) : QItem.pill ∉ (getItemsFromQueue q).1 := by
  have htake : QItem.pill ∉ q.take BATCH_MAX_SIZE := fun hc =>
    hpill (List.take_subset _ _ hc)
  rw [getItems_items, if_neg htake]
  exact htake

theorem items_nonempty_of_ne_nil (q : List QItem) (hq : q ≠ [])
    (hpill : QItem.pill ∉ q) : (getItemsFromQueue q).1 ≠ [] := by
  have htake : QItem.pill ∉ q.take BATCH_MAX_SIZE := fun hc =>
    hpill (List.take_subset _ _ hc)
  rw [getItems_items, if_neg htake]
  simp [List.take_eq_nil_iff, BATCH_MAX_SIZE, hq]

/-- C6: an exception thrown by the sink during a background submission is
caught inside `_publish_metrics` and recorded as `_last_exception`; the cycle
still produces a result with `_should_terminate` false, so `_publish_loop`
proceeds to the next cycle instead of crashing; and `close()` re-raises an
error to its caller exactly when `raise_on_close` is set and an error was
recorded — in which case the raised error is the recorded one. -/
theorem publish_error_recorded_raised_at_close (sink : Sink) (q : List QItem)
    (lastExc : Option MErr) (e : MErr) (hq : q ≠ []) (hpill : QItem.pill ∉ q)
    (hthrow : sink (realMetrics (q.take BATCH_MAX_SIZE)) = Except.error e) :
    (publishMetrics sink lastExc q).lastException = some e ∧
    (publishMetrics sink lastExc q).shouldTerminate = false ∧
    (∀ (roc : Bool) (lex : Option MErr),
      (closeRaises roc lex).isSome ↔ roc = true ∧ lex.isSome) ∧
    (∀ lex : Option MErr, closeRaises true lex = lex) := by
  have hnp := pill_not_mem_items_of_not_mem q hpill
  have htake : QItem.pill ∉ q.take BATCH_MAX_SIZE := fun hc =>
    hpill (List.take_subset _ _ hc)
  have hitems : (getItemsFromQueue q).1 = q.take BATCH_MAX_SIZE := by
    rw [getItems_items, if_neg htake]
  have hne := items_nonempty_of_ne_nil q hq hpill
  rw [publishMetrics_no_pill sink lastExc q hnp]
  refine ⟨?_, ?_, ?_, ?_⟩
  · have hne2 : q.take BATCH_MAX_SIZE ≠ [] := hitems ▸ hne
    simp only [List.isEmpty_iff, hitems, hthrow, processResponse]
    rw [if_neg hne2]
  · simp [getItems_term, htake]
  · intro roc lex
    cases roc <;> simp [closeRaises]
  · intro lex
    simp [closeRaises]

/-- Concrete instance of `publish_error_recorded_raised_at_close`: a sink that
always throws. -/
theorem publish_error_recorded_raised_at_close_witness :
    ([QItem.metric ⟨"m", 1, 0, none⟩] : List QItem) ≠ [] ∧
    QItem.pill ∉ ([QItem.metric ⟨"m", 1, 0, none⟩] : List QItem) ∧
    ((publishMetrics (fun _ => Except.error (MErr.sinkFailure "Boo!")) none
        [QItem.metric ⟨"m", 1, 0, none⟩]).lastException =
      some (MErr.sinkFailure "Boo!") ∧
     (publishMetrics (fun _ => Except.error (MErr.sinkFailure "Boo!")) none
        [QItem.metric ⟨"m", 1, 0, none⟩]).shouldTerminate = false ∧
     (∀ (roc : Bool) (lex : Option MErr),
       (closeRaises roc lex).isSome ↔ roc = true ∧ lex.isSome) ∧
     (∀ lex : Option MErr, closeRaises true lex = lex)) :=
  ⟨by decide, by decide,
   publish_error_recorded_raised_at_close
     (fun _ => Except.error (MErr.sinkFailure "Boo!"))
     [QItem.metric ⟨"m", 1, 0, none⟩] none (MErr.sinkFailure "Boo!")
     (by decide) (by decide) rfl⟩

/-- C7: when the sink's response reports a per-item error for index `i` (in
range), after the flush `_last_exception` is the structured
`SageMakerMetricsWriterException` whose `errors` list pairs the reported
failure with the originally submitted record at index `i` — so `has_error` is
true, `last_error.errors[0].metric_index == i`, and the error carries the
original metric record. -/
theorem publish_partial_errors_attributed (sink : Sink) (q : List QItem)
    (lastExc : Option MErr) (c m : String) (i : ℕ) (hq : q ≠ [])
    (hpill : QItem.pill ∉ q)
    (hi : i < (realMetrics (q.take BATCH_MAX_SIZE)).length)
    (hresp : sink (realMetrics (q.take BATCH_MAX_SIZE)) =
      Except.ok ⟨some (some [⟨c, m, i⟩])⟩) :
    (publishMetrics sink lastExc q).lastException =
      some (MErr.batchPutErrors
        [⟨c, m, i, (realMetrics (q.take BATCH_MAX_SIZE)).get ⟨i, hi⟩⟩]) ∧
    ((publishMetrics sink lastExc q).lastException).isSome = true := by
  have hnp := pill_not_mem_items_of_not_mem q hpill
  have htake : QItem.pill ∉ q.take BATCH_MAX_SIZE := fun hc =>
    hpill (List.take_subset _ _ hc)
  have hitems : (getItemsFromQueue q).1 = q.take BATCH_MAX_SIZE := by
    rw [getItems_items, if_neg htake]
  have hne := items_nonempty_of_ne_nil q hq hpill
  rw [publishMetrics_no_pill sink lastExc q hnp]
  have hmain : (if (getItemsFromQueue q).1.isEmpty then lastExc
      else processResponse (sink (realMetrics (getItemsFromQueue q).1))
        (realMetrics (getItemsFromQueue q).1) lastExc) =
      some (MErr.batchPutErrors
        [⟨c, m, i, (realMetrics (q.take BATCH_MAX_SIZE)).get ⟨i, hi⟩⟩]) := by
    rw [if_neg (by simpa [List.isEmpty_iff] using hne), hitems, hresp]
    simp only [processResponse, attributeErrors, List.mapM_cons, List.mapM_nil]
    rw [List.getElem?_eq_getElem hi]
    simp [List.get_eq_getElem]
  exact ⟨hmain, by rw [hmain]; rfl⟩

/-- Concrete instance of `publish_partial_errors_attributed`: one submitted
record, one reported error at index 0. -/
theorem publish_partial_errors_attributed_witness :
    ([QItem.metric ⟨"m", 1, 0, none⟩] : List QItem) ≠ [] ∧
    QItem.pill ∉ ([QItem.metric ⟨"m", 1, 0, none⟩] : List QItem) ∧
    0 < (realMetrics (([QItem.metric ⟨"m", 1, 0, none⟩] :
      List QItem).take BATCH_MAX_SIZE)).length ∧
    ((publishMetrics
        (fun _ => Except.ok ⟨some (some [⟨"InternalError", "Bah", 0⟩])⟩) none
        [QItem.metric ⟨"m", 1, 0, none⟩]).lastException =
      some (MErr.batchPutErrors
        [⟨"InternalError", "Bah", 0,
          (realMetrics (([QItem.metric ⟨"m", 1, 0, none⟩] :
            List QItem).take BATCH_MAX_SIZE)).get ⟨0, by decide⟩⟩]) ∧
     ((publishMetrics
        (fun _ => Except.ok ⟨some (some [⟨"InternalError", "Bah", 0⟩])⟩) none
        [QItem.metric ⟨"m", 1, 0, none⟩]).lastException).isSome = true) :=
  ⟨by decide, by decide, by decide,
   publish_partial_errors_attributed
     (fun _ => Except.ok ⟨some (some [⟨"InternalError", "Bah", 0⟩])⟩)
     [QItem.metric ⟨"m", 1, 0, none⟩] none "InternalError" "Bah" 0
     (by decide) (by decide) (by decide) rfl⟩

/-- C8 counterexample: a response that omits the `Errors` key entirely is not
treated as a success — `result['Errors']` raises `KeyError`, which the `try`
block records as `_last_exception`, so `has_error` becomes true after this
flush even though the sink reported no per-item error. -/
theorem publish_missing_errors_key_counterexample :
    (publishMetrics (fun _ => Except.ok ⟨none⟩) none
      [QItem.metric ⟨"m", 1, 0, none⟩]).lastException = some MErr.keyError := by
  rfl

/-- C8 (corrected): the writer requires of the injected client only the
batch-submit operation; a flush whose response carries the per-item error
field with no reported error — present with value `None` or the empty list —
is treated as a success: `has_error` stays false and no `last_error` is
recorded.  A response lacking the error field altogether is, however, recorded
as an error (`KeyError`), per `publish_missing_errors_key_counterexample`. -/
theorem publish_falsy_errors_success (sink : Sink) (q : List QItem)
    (hq : q ≠ []) (hpill : QItem.pill ∉ q)
    (hresp : ∃ r, sink (realMetrics (q.take BATCH_MAX_SIZE)) = Except.ok r ∧
      (r.errorsField = some none ∨ r.errorsField = some (some []))) :
    (publishMetrics sink none q).lastException = none := by
  have hnp := pill_not_mem_items_of_not_mem q hpill
  have htake : QItem.pill ∉ q.take BATCH_MAX_SIZE := fun hc =>
    hpill (List.take_subset _ _ hc)
  have hitems : (getItemsFromQueue q).1 = q.take BATCH_MAX_SIZE := by
    rw [getItems_items, if_neg htake]
  have hne := items_nonempty_of_ne_nil q hq hpill
  obtain ⟨r, hr, hfield⟩ := hresp
  rw [publishMetrics_no_pill sink none q hnp]
  simp only [if_neg (by simpa [List.isEmpty_iff] using hne), hitems, hr]
  rcases hfield with hf | hf <;> simp [processResponse, hf]

/-- Concrete instance of `publish_falsy_errors_success`: a sink responding
with an empty error list. -/
theorem publish_falsy_errors_success_witness :
    ([QItem.metric ⟨"m", 1, 0, none⟩] : List QItem) ≠ [] ∧
    QItem.pill ∉ ([QItem.metric ⟨"m", 1, 0, none⟩] : List QItem) ∧
    (publishMetrics okSink none
      [QItem.metric ⟨"m", 1, 0, none⟩]).lastException = none :=
  ⟨by decide, by decide,
   publish_falsy_errors_success okSink [QItem.metric ⟨"m", 1, 0, none⟩]
     (by decide) (by decide) ⟨⟨some (some [])⟩, rfl, Or.inr rfl⟩⟩

/-! ### The shutdown scenario: invariant and main theorem -/

theorem realMetrics_map_metric (l : List RawMetricData) :
    realMetrics (l.map QItem.metric) = l := by
  induction l with
  | nil => rfl
  | cons d t ih => rw [List.map_cons, realMetrics_cons_metric, ih]

theorem processResponse_good (sink : Sink) (hsink : GoodSink sink)
    (md : List RawMetricData) (lastExc : Option MErr) :
    processResponse (sink md) md lastExc = lastExc := by
  obtain ⟨r, hr, hf⟩ := hsink md
  rw [hr]
  rcases hf with hf | hf <;> simp [processResponse, hf]

/-- A prefix of the stream `ms.map metric ++ [pill]` is either a pill-free
prefix of the metric part, or the whole stream. -/
theorem prefix_cases (dr : List QItem) (ms : List RawMetricData)
    (h : dr <+: ms.map QItem.metric ++ [QItem.pill]) :
    (dr.length ≤ ms.length ∧ dr = (ms.take dr.length).map QItem.metric) ∨
    dr = ms.map QItem.metric ++ [QItem.pill] := by
  have hlen : dr.length ≤ ms.length + 1 := by simpa using h.length_le
  have htake := List.prefix_iff_eq_take.mp h
  by_cases hle : dr.length ≤ ms.length
  · left
    refine ⟨hle, ?_⟩
    conv_lhs => rw [htake]
    rw [List.take_append_of_le_length (by simpa using hle), List.map_take]
  · right
    have hlen2 : dr.length = ms.length + 1 := by omega
    conv_lhs => rw [htake]
    rw [List.take_of_length_le (by simp; omega)]

/-- The invariant is preserved by every step of the interleaving. -/
theorem inv_step (sink : Sink) (hsink : GoodSink sink) (N : ℕ) (s t : Sys)
    (hinv : Inv N s) (hstep : Step sink s t) : Inv N t := by
  obtain ⟨hexc, hterm_t, hterm_f⟩ := hinv
  cases hstep with
  | produce x rest hp hroom =>
    cases hT : s.terminated with
    | false =>
      obtain ⟨ms, hstream, hcnt⟩ := hterm_f hT
      refine ⟨hexc, ?_, ?_⟩
      · intro hc
        simp at hc
      · intro _
        refine ⟨ms, ?_, hcnt⟩
        show (s.queue ++ [x]) ++ rest = _
        rw [← hstream, hp]
        simp
    | true =>
      obtain ⟨_, hpend, _⟩ := hterm_t hT
      rw [hpend] at hp
      exact absurd hp (by simp)
  | consume hrun hne =>
    obtain ⟨ms, hstream, hcnt⟩ := hterm_f hrun
    have hpillms : QItem.pill ∉ ms.map QItem.metric := by simp
    have hdr_pref : s.queue.take BATCH_MAX_SIZE <+:
        ms.map QItem.metric ++ [QItem.pill] := by
      rw [← hstream]
      exact (List.take_prefix _ _).trans (List.prefix_append _ _)
    by_cases hmem : QItem.pill ∈ s.queue.take BATCH_MAX_SIZE
    · -- the pill is in the drained batch: everything is drained and submitted
      have hdrL : s.queue.take BATCH_MAX_SIZE =
          ms.map QItem.metric ++ [QItem.pill] := by
        rcases prefix_cases _ ms hdr_pref with ⟨_, hdr⟩ | hdr
        · rw [hdr] at hmem
          obtain ⟨d, _, hd⟩ := List.mem_map.mp hmem
          exact absurd hd (by simp)
        · exact hdr
      -- the drained batch equals queue ++ pending, so pending = [] and
      -- the batch is the whole queue
      have hQP : s.queue.take BATCH_MAX_SIZE = s.queue ++ s.pending := by
        rw [hdrL, hstream]
      have hlenQP := congrArg List.length hQP
      simp only [List.length_take, List.length_append] at hlenQP
      have hpend : s.pending = [] := by
        have : s.pending.length = 0 := by omega
        exact List.length_eq_zero.mp this
      have hq10 : s.queue.length ≤ BATCH_MAX_SIZE := by omega
      have hqL : s.queue = ms.map QItem.metric ++ [QItem.pill] := by
        rw [← hdrL, List.take_of_length_le hq10]
      have hitems : (getItemsFromQueue s.queue).1 = ms.map QItem.metric := by
        rw [getItems_items, if_pos hmem, hdrL,
          List.erase_append_right _ hpillms]
        simp
      have hnp : QItem.pill ∉ (getItemsFromQueue s.queue).1 := by
        rw [hitems]; exact hpillms
      have hpub := publishMetrics_no_pill sink s.lastException s.queue hnp
      have hterm2 : (getItemsFromQueue s.queue).2.2 = true := by
        rw [getItems_term]
        simpa using hmem
      refine ⟨?_, ?_, ?_⟩
      · show (publishMetrics sink s.lastException s.queue).lastException = none
        rw [hpub, hexc]
        by_cases hie : (getItemsFromQueue s.queue).1.isEmpty <;>
          simp [hie, processResponse_good sink hsink]
      · intro _
        refine ⟨?_, hpend, ?_⟩
        · show (publishMetrics sink s.lastException s.queue).queueAfter = []
          rw [hpub, getItems_queueAfter]
          exact List.drop_eq_nil_of_le hq10
        · show s.submitted +
              (publishMetrics sink s.lastException s.queue).submitted.length = N
          rw [hpub]
          simp only [hitems, realMetrics_map_metric]
          omega
      · intro hc
        exfalso
        have hc2 : (publishMetrics sink s.lastException s.queue).shouldTerminate
            = false := hc
        rw [hpub] at hc2
        rw [hterm2] at hc2
        simp at hc2
    · -- no pill drained: a pill-free batch is submitted, the loop goes on
      have hdr : s.queue.take BATCH_MAX_SIZE =
          (ms.take (s.queue.take BATCH_MAX_SIZE).length).map QItem.metric ∧
          (s.queue.take BATCH_MAX_SIZE).length ≤ ms.length := by
        rcases prefix_cases _ ms hdr_pref with ⟨hle, hdr⟩ | hdr
        · exact ⟨hdr, hle⟩
        · rw [hdr] at hmem
          exact absurd (by simp : QItem.pill ∈ ms.map QItem.metric ++ [QItem.pill])
            hmem
      obtain ⟨hdr1, hdrle⟩ := hdr
      have hrest : s.queue.drop BATCH_MAX_SIZE ++ s.pending =
          (ms.drop (s.queue.take BATCH_MAX_SIZE).length).map QItem.metric ++
            [QItem.pill] := by
        have hsplit : s.queue.take BATCH_MAX_SIZE ++
            (s.queue.drop BATCH_MAX_SIZE ++ s.pending) =
            ms.map QItem.metric ++ [QItem.pill] := by
          rw [← hstream, ← List.append_assoc, List.take_append_drop]
        have := congrArg (List.drop (s.queue.take BATCH_MAX_SIZE).length) hsplit
        rw [List.drop_left] at this
        rw [this, List.drop_append_of_le_length (by simpa using hdrle),
          List.map_drop]
      have hitems : (getItemsFromQueue s.queue).1 = s.queue.take BATCH_MAX_SIZE := by
        rw [getItems_items, if_neg hmem]
      have hnp : QItem.pill ∉ (getItemsFromQueue s.queue).1 := by
        rw [hitems]; exact hmem
      have hpub := publishMetrics_no_pill sink s.lastException s.queue hnp
      have hsub : (realMetrics (getItemsFromQueue s.queue).1).length =
          (s.queue.take BATCH_MAX_SIZE).length := by
        rw [hitems]
        conv_lhs => rw [hdr1]
        rw [realMetrics_map_metric, List.length_take]
        omega
      refine ⟨?_, ?_, ?_⟩
      · show (publishMetrics sink s.lastException s.queue).lastException = none
        rw [hpub, hexc]
        by_cases hie : (getItemsFromQueue s.queue).1.isEmpty <;>
          simp [hie, processResponse_good sink hsink]
      · intro hc
        exfalso
        have hterm3 : (getItemsFromQueue s.queue).2.2 = false := by
          rw [getItems_term]
          simpa using hmem
        have hc2 : (publishMetrics sink s.lastException s.queue).shouldTerminate
            = true := hc
        rw [hpub] at hc2
        rw [hterm3] at hc2
        simp at hc2
      · intro _
        refine ⟨ms.drop (s.queue.take BATCH_MAX_SIZE).length, ?_, ?_⟩
        · show (publishMetrics sink s.lastException s.queue).queueAfter ++
              s.pending = _
          rw [hpub, getItems_queueAfter]
          exact hrest
        · show (ms.drop (s.queue.take BATCH_MAX_SIZE).length).length +
              (s.submitted +
                (publishMetrics sink s.lastException s.queue).submitted.length)
              = N
          rw [hpub]
          simp only [hsub, List.length_drop]
          omega

theorem inv_reach (sink : Sink) (hsink : GoodSink sink) (N : ℕ) (s t : Sys)
    (hinv : Inv N s) (hreach : Relation.ReflTransGen (Step sink) s t) :
    Inv N t := by
  induction hreach with
  | refl => exact hinv
  | tail _ h2 ih => exact inv_step sink hsink N _ _ ih h2

theorem inv_init (metrics : List RawMetricData) :
    Inv metrics.length (initSys metrics) :=
  ⟨rfl, fun hc => by simp [initSys] at hc,
   fun _ => ⟨metrics, by simp [initSys], by simp [initSys]⟩⟩

/-- C2: for every sequence of `QUEUE_SIZE + 1` valid `log_metric` calls
followed by `close()` (the pill is the last pending item), against a sink
whose batch submissions always succeed, in every interleaving of the caller
and the worker that reaches worker termination: the total number of records
submitted across all sink calls is exactly `QUEUE_SIZE + 1`, no error was
recorded, and `close()` with `raise_on_close = True` raises nothing. -/
theorem enqueue_all_then_close_submits_all (metrics : List RawMetricData)
    (hN : metrics.length = QUEUE_SIZE + 1) (sink : Sink) (hsink : GoodSink sink)
    (s : Sys) (hreach : Relation.ReflTransGen (Step sink) (initSys metrics) s)
    (hterm : s.terminated = true) :
    s.submitted = QUEUE_SIZE + 1 ∧ s.lastException = none ∧
    closeRaises true s.lastException = none := by
  have hinv := inv_reach sink hsink metrics.length (initSys metrics) s
    (inv_init metrics) hreach
  obtain ⟨hexc, ht, _⟩ := hinv
  obtain ⟨_, _, hsub⟩ := ht hterm
  exact ⟨hN ▸ hsub, hexc, by simp [closeRaises, hexc]⟩

theorem schedStep_refl_or_step (sink : Sink) (s : Sys) :
    schedStep sink s = s ∨ Step sink s (schedStep sink s) := by
  by_cases ht : s.terminated = true
  · left
    simp [schedStep, ht]
  · rcases hp : s.pending with _ | ⟨x, rest⟩
    · by_cases hq : s.queue.isEmpty
      · left
        simp [schedStep, ht, hp, hq]
      · right
        have h2 : schedStep sink s = consumeSys sink s := by
          simp [schedStep, ht, hp, hq]
        rw [h2]
        exact Step.consume s (by simpa using ht)
          (by simpa [List.isEmpty_iff] using hq)
    · by_cases hroom : s.queue.length < QUEUE_SIZE
      · right
        have h2 : schedStep sink s =
            { s with pending := rest, queue := s.queue ++ [x] } := by
          simp [schedStep, ht, hp, hroom]
        rw [h2]
        exact Step.produce s x rest hp hroom
      · right
        have h2 : schedStep sink s = consumeSys sink s := by
          simp [schedStep, ht, hp, hroom]
        rw [h2]
        refine Step.consume s (by simpa using ht) ?_
        intro hc
        rw [hc] at hroom
        exact hroom (by simp [QUEUE_SIZE, BATCH_MAX_SIZE])

theorem exec_reach (sink : Sink) (n : ℕ) (s : Sys) :
    Relation.ReflTransGen (Step sink) s (exec sink n s) := by
  induction n generalizing s with
  | zero => exact Relation.ReflTransGen.refl
  | succ n ih =>
    have hx : exec sink (n + 1) s = exec sink n (schedStep sink s) := rfl
    rw [hx]
    rcases schedStep_refl_or_step sink s with h | h
    · rw [h]
      exact ih s
    · exact Relation.ReflTransGen.head h (ih _)

/-- Concrete instance of `enqueue_all_then_close_submits_all`: 31 identical
data points, the always-succeeding sink, and the deterministic schedule
produced by `exec`, which terminates within 40 steps. -/
theorem enqueue_all_then_close_submits_all_witness :
    (List.replicate (QUEUE_SIZE + 1)
      (⟨"m", 1, 2, none⟩ : RawMetricData)).length = QUEUE_SIZE + 1 ∧
    GoodSink okSink ∧
    (exec okSink 40 (initSys (List.replicate (QUEUE_SIZE + 1)
      ⟨"m", 1, 2, none⟩))).terminated = true ∧
    ((exec okSink 40 (initSys (List.replicate (QUEUE_SIZE + 1)
       ⟨"m", 1, 2, none⟩))).submitted = QUEUE_SIZE + 1 ∧
     (exec okSink 40 (initSys (List.replicate (QUEUE_SIZE + 1)
       ⟨"m", 1, 2, none⟩))).lastException = none ∧
     closeRaises true (exec okSink 40 (initSys (List.replicate (QUEUE_SIZE + 1)
       ⟨"m", 1, 2, none⟩))).lastException = none) :=
  ⟨by simp, okSink_good, by decide,
   enqueue_all_then_close_submits_all _ (by simp) okSink okSink_good _
     (exec_reach okSink 40 _) (by decide)⟩

/-! ### Schema mapper (`_base_types.ApiObject` with `_boto_functions`)

The conversion helpers live in `_boto_functions.py`, which is not part of the
source tree here (only `_base_types.py` and its unit tests are); the
name-transform and conversion functions below are therefore modelled from the
spec, faithful to its words: outbound "split on underscores, capitalize each
segment, concatenate"; inbound "insert underscore before each internal capital
boundary, lowercase"; `None`-valued attributes skipped outbound; registered
custom types converted recursively, element-wise over collections; override
tables consulted before the deterministic transform. -/

def lowerChars : List Char :=
  ['a', 'b', 'c', 'd', 'e', 'f', 'g', 'h', 'i', 'j', 'k', 'l', 'm',
   'n', 'o', 'p', 'q', 'r', 's', 't', 'u', 'v', 'w', 'x', 'y', 'z']

def digitChars : List Char :=
  ['0', '1', '2', '3', '4', '5', '6', '7', '8', '9']

/-- Split a character list on underscores (Python `s.split("_")`). -/
def splitSegs : List Char → List (List Char)
  | [] => [[]]
  | c :: r =>
    if c = '_' then [] :: splitSegs r
    else
      match splitSegs r with
      | s :: ss => (c :: s) :: ss
      | [] => [[c]]

/-- Capitalise a segment: upper-case its first character. -/
def capSeg : List Char → List Char
  | [] => []
  | c :: r => c.toUpper :: r

def joinUnderscore : List (List Char) → List Char
  | [] => []
  | [s] => s
  | s :: s2 :: rest => s ++ '_' :: joinUnderscore (s2 :: rest)

/-- Modelled from the spec: the deterministic outbound name transform of the
missing `_boto_functions` module — split on underscores, capitalise each
segment, concatenate. -/
def toCamelL (cs : List Char) : List Char :=
  ((splitSegs cs).map capSeg).flatten

def fromCamelGo : List Char → List Char
  | [] => []
  | c :: r =>
    if c.isUpper then '_' :: c.toLower :: fromCamelGo r else c :: fromCamelGo r

/-- Modelled from the spec: the deterministic inbound name transform of the
missing `_boto_functions` module — insert an underscore before each internal
capital boundary, lower-case. -/
def fromCamelL : List Char → List Char
  | [] => []
  | c :: r => c.toLower :: fromCamelGo r

def to_camel_case (s : String) : String := ⟨toCamelL s.data⟩

def from_camel_case (s : String) : String := ⟨fromCamelL s.data⟩

/-- A well-formed snake_case segment: non-empty, a lower-case letter followed
by lower-case letters or digits. -/
def segWF : List Char → Bool
  | [] => false
  | c :: r =>
    decide (c ∈ lowerChars) &&
      r.all (fun d => decide (d ∈ lowerChars) || decide (d ∈ digitChars))

/-- A well-formed snake_case member name: every underscore-separated segment
is well-formed. -/
def snakeWF (s : String) : Bool := (splitSegs s.data).all segWF

theorem splitSegs_ne_nil (cs : List Char) : splitSegs cs ≠ [] := by
  cases cs with
  | nil => simp [splitSegs]
  | cons c r =>
    unfold splitSegs
    by_cases h : c = '_'
    · simp [h]
    · rcases hs : splitSegs r with _ | ⟨s, ss⟩ <;> simp [h, hs]

theorem joinUnderscore_splitSegs (cs : List Char) :
    joinUnderscore (splitSegs cs) = cs := by
  induction cs with
  | nil => rfl
  | cons c r ih =>
    unfold splitSegs
    by_cases h : c = '_'
    · rw [if_pos h]
      rcases hs : splitSegs r with _ | ⟨s, ss⟩
      · exact absurd hs (splitSegs_ne_nil r)
      · rw [hs] at ih
        subst h
        show joinUnderscore ([] :: s :: ss) = '_' :: r
        rw [joinUnderscore]
        · rw [← ih]
          rfl
    · rw [if_neg h]
      rcases hs : splitSegs r with _ | ⟨s, ss⟩
      · exact absurd hs (splitSegs_ne_nil r)
      · rw [hs] at ih
        rcases ss with _ | ⟨s2, ss2⟩
        · show joinUnderscore [c :: s] = c :: r
          rw [joinUnderscore]
          rw [joinUnderscore] at ih
          rw [ih]
        · show joinUnderscore ((c :: s) :: s2 :: ss2) = c :: r
          rw [joinUnderscore] at ih ⊢
          rw [← ih]
          rfl

theorem lower_toUpper_toLower :
    ∀ c ∈ lowerChars, (Char.toUpper c).toLower = c := by decide

theorem lower_toUpper_isUpper :
    ∀ c ∈ lowerChars, (Char.toUpper c).isUpper = true := by decide

theorem lower_not_isUpper : ∀ c ∈ lowerChars, c.isUpper = false := by decide

theorem digit_not_isUpper : ∀ c ∈ digitChars, c.isUpper = false := by decide

theorem fromCamelGo_append_no_upper (r t : List Char)
    (h : ∀ c ∈ r, c.isUpper = false) :
    fromCamelGo (r ++ t) = r ++ fromCamelGo t := by
  induction r with
  | nil => rfl
  | cons c r ih =>
    rw [List.cons_append, fromCamelGo, if_neg]
    · rw [ih fun d hd => h d (List.mem_cons_of_mem _ hd)]
      rfl
    · rw [h c (List.mem_cons_self _ _)]
      simp

theorem segWF_tail_no_upper (c : Char) (r : List Char)
    (h : segWF (c :: r) = true) : ∀ d ∈ r, d.isUpper = false := by
  intro d hd
  rw [segWF, Bool.and_eq_true, List.all_eq_true] at h
  have h2 := h.2 d hd
  rw [Bool.or_eq_true, decide_eq_true_eq, decide_eq_true_eq] at h2
  rcases h2 with h2 | h2
  · exact lower_not_isUpper d h2
  · exact digit_not_isUpper d h2

theorem segWF_head_lower (c : Char) (r : List Char)
    (h : segWF (c :: r) = true) : c ∈ lowerChars := by
  rw [segWF, Bool.and_eq_true, decide_eq_true_eq] at h
  exact h.1

/-- Core of the name round trip, by induction on the segment list: undoing the
camel-case concatenation of well-formed segments recovers the
underscore-joined original (`fromCamelGo` sees the next segment start as an
internal capital boundary). -/
theorem seg_roundtrip_core (segs : List (List Char)) (hne : segs ≠ [])
    (hwf : ∀ seg ∈ segs, segWF seg = true) :
    fromCamelL ((segs.map capSeg).flatten) = joinUnderscore segs ∧
    fromCamelGo ((segs.map capSeg).flatten) = '_' :: joinUnderscore segs := by
  induction segs with
  | nil => exact absurd rfl hne
  | cons s rest ih =>
    rcases hs : s with _ | ⟨c, r⟩
    · rw [hs] at hwf
      have := hwf [] (List.mem_cons_self _ _)
      simp [segWF] at this
    · have hwfs := hwf s (List.mem_cons_self _ _)
      rw [hs] at hwfs
      have hcl := segWF_head_lower c r hwfs
      have hrl := segWF_tail_no_upper c r hwfs
      have hupper := lower_toUpper_isUpper c hcl
      have hlower := lower_toUpper_toLower c hcl
      rcases rest with _ | ⟨s2, rest2⟩
      · -- a single segment
        have hnil : fromCamelGo r = r := by
          have := fromCamelGo_append_no_upper r [] hrl
          simpa [fromCamelGo] using this
        constructor
        · show fromCamelL (capSeg (c :: r) ++ []) = c :: r
          rw [List.append_nil, capSeg, fromCamelL, hnil, hlower]
        · show fromCamelGo (capSeg (c :: r) ++ []) = '_' :: (c :: r)
          rw [List.append_nil, capSeg, fromCamelGo, if_pos hupper, hnil, hlower]
      · -- at least two segments
        have hwfr : ∀ seg ∈ s2 :: rest2, segWF seg = true := fun seg hseg =>
          hwf seg (List.mem_cons_of_mem _ hseg)
        obtain ⟨ih1, ih2⟩ := ih (by simp) hwfr
        have hgo : fromCamelGo (r ++ ((s2 :: rest2).map capSeg).flatten) =
            r ++ '_' :: joinUnderscore (s2 :: rest2) := by
          rw [fromCamelGo_append_no_upper r _ hrl, ih2]
        constructor
        · show fromCamelL (capSeg (c :: r) ++ ((s2 :: rest2).map capSeg).flatten)
              = joinUnderscore ((c :: r) :: s2 :: rest2)
          rw [capSeg, List.cons_append, fromCamelL, hgo, hlower, joinUnderscore]
          simp
        · show fromCamelGo (capSeg (c :: r) ++ ((s2 :: rest2).map capSeg).flatten)
              = '_' :: joinUnderscore ((c :: r) :: s2 :: rest2)
          rw [capSeg, List.cons_append, fromCamelGo, if_pos hupper, hgo, hlower,
            joinUnderscore]
          simp

/-- Round trip of the deterministic name transform on well-formed snake_case
names. -/
theorem name_roundtrip (s : String) (h : snakeWF s = true) :
    from_camel_case (to_camel_case s) = s := by
  obtain ⟨l⟩ := s
  have hwf : ∀ seg ∈ splitSegs l, segWF seg = true := List.all_eq_true.mp h
  have hdata : fromCamelL (toCamelL l) = l := by
    rw [toCamelL,
      (seg_roundtrip_core (splitSegs l) (splitSegs_ne_nil _) hwf).1]
    exact joinUnderscore_splitSegs l
  show (⟨fromCamelL (toCamelL l)⟩ : String) = ⟨l⟩
  rw [hdata]

/-- A Python value held in an `ApiObject` attribute or a boto dict entry:
primitives (strings, numbers as `ℚ`, booleans, `None`), a dict — either the
attribute dict of a nested object or a string-keyed map collection — or a
list. -/
inductive Value where
  | str (s : String)
  | num (q : ℚ)
  | bool (b : Bool)
  | null
  | obj (fields : List (String × Value))
  | list (elems : List Value)
  deriving Repr

/-- Test `member_value is None`. -/
def Value.isNull : Value → Bool
  | .null => true
  | _ => false

/-- The static mapping tables of one `ApiObject` subclass:
`_custom_boto_names` (member name to boto name, with an override entry per
irregular name) and `_custom_boto_types` (member name to nested class plus
collection flag); a nested class is itself given by its schema. -/
inductive Schema where
  | mk (customNames : List (String × String))
       (customTypes : List (String × Schema × Bool))

def Schema.customNames : Schema → List (String × String)
  | .mk ns _ => ns

def Schema.customTypes : Schema → List (String × Schema × Bool)
  | .mk _ ts => ts

/-- Boto name of a member: the override entry when registered, else the
deterministic transform. -/
def botoNameOf (s : Schema) (name : String) : String :=
  match (s.customNames).lookup name with
  | some bn => bn
  | none => to_camel_case name

/-- Reverse of the `_custom_boto_names` table, as built by
`{a: b for b, a in cls._custom_boto_names.items()}`. -/
def reverseLookup (tbl : List (String × String)) (k : String) : Option String :=
  (tbl.map (fun p => (p.2, p.1))).lookup k

/-- Member name resolved from a boto key: the reversed override table when it
applies, else the deterministic reverse transform. -/
def memberNameOf (s : Schema) (botoName : String) : String :=
  match reverseLookup (s.customNames) botoName with
  | some n => n
  | none => from_camel_case botoName

mutual
/-- Modelled from the spec: `_boto_functions.to_boto` (the module is absent
from `src/`), the outbound conversion of an attribute dict: `None`-valued
attributes are skipped; a value registered in `_custom_boto_types` is
converted recursively through its nested schema (element-wise over a list or
map collection); the key is the override name when registered, else the
camel-case transform. -/
def to_boto (s : Schema) (varDict : List (String × Value)) :
    List (String × Value) :=
  match varDict with
  | [] => []
  | (name, v) :: rest =>
    if v.isNull then to_boto s rest
    else
      ((match (s.customNames).lookup name with
        | some bn => bn
        | none => to_camel_case name),
       (match (s.customTypes).lookup name with
        | some (sub, isColl) => to_boto_value sub isColl v
        | none => v)) :: to_boto s rest
termination_by sizeOf varDict

/-- Outbound conversion of one registered custom-typed value: a nested
object's dict converts through the nested schema; a collection converts
element-wise (list) or value-wise (map). -/
def to_boto_value (sub : Schema) (isColl : Bool) (v : Value) : Value :=
  if isColl then
    match v with
    | .list es => .list (to_boto_elems sub es)
    | .obj fs => .obj (to_boto_mapvals sub fs)
    | w => w
  else
    match v with
    | .obj fs => .obj (to_boto sub fs)
    | w => w
termination_by sizeOf v

def to_boto_elems (sub : Schema) : List Value → List Value
  | [] => []
  | e :: es => to_boto_value sub false e :: to_boto_elems sub es
termination_by es => sizeOf es

def to_boto_mapvals (sub : Schema) :
    List (String × Value) → List (String × Value)
  | [] => []
  | (k, w) :: fs => (k, to_boto_value sub false w) :: to_boto_mapvals sub fs
termination_by fs => sizeOf fs
end

mutual
/-- Modelled from the spec: `_boto_functions.from_boto` (the module is absent
from `src/`), the inbound conversion of a boto dict: resolve the member name
through the reversed override table or the reverse transform; a member
registered in `_custom_boto_types` converts recursively (element-wise over
collections); unregistered keys pass through with the name transform only;
nothing is skipped. -/
def from_boto (s : Schema) (botoDict : List (String × Value)) :
    List (String × Value) :=
  match botoDict with
  | [] => []
  | (botoName, v) :: rest =>
    (memberNameOf s botoName,
     (match (s.customTypes).lookup (memberNameOf s botoName) with
      | some (sub, isColl) => from_boto_value sub isColl v
      | none => v)) :: from_boto s rest
termination_by sizeOf botoDict

def from_boto_value (sub : Schema) (isColl : Bool) (v : Value) : Value :=
  if isColl then
    match v with
    | .list es => .list (from_boto_elems sub es)
    | .obj fs => .obj (from_boto_mapvals sub fs)
    | w => w
  else
    match v with
    | .obj fs => .obj (from_boto sub fs)
    | w => w
termination_by sizeOf v

def from_boto_elems (sub : Schema) : List Value → List Value
  | [] => []
  | e :: es => from_boto_value sub false e :: from_boto_elems sub es
termination_by es => sizeOf es

def from_boto_mapvals (sub : Schema) :
    List (String × Value) → List (String × Value)
  | [] => []
  | (k, w) :: fs => (k, from_boto_value sub false w) :: from_boto_mapvals sub fs
termination_by fs => sizeOf fs
end

mutual
/-- Attribute dicts on which the round trip holds: snake_case member names not
touched by the custom-name tables, no `None` values, and registered
custom-typed values of the matching shape, recursively. -/
def wfFields (s : Schema) : List (String × Value) → Bool
  | [] => true
  | (name, v) :: rest =>
    snakeWF name &&
    ((s.customNames).lookup name).isNone &&
    (reverseLookup (s.customNames) (to_camel_case name)).isNone &&
    !v.isNull &&
    (match (s.customTypes).lookup name with
     | some (sub, isColl) => wfVal sub isColl v
     | none => true) &&
    wfFields s rest
termination_by varDict => sizeOf varDict

def wfVal (sub : Schema) (isColl : Bool) (v : Value) : Bool :=
  if isColl then
    match v with
    | .list es => wfElems sub es
    | .obj fs => wfMapVals sub fs
    | _ => false
  else
    match v with
    | .obj fs => wfFields sub fs
    | _ => false
termination_by sizeOf v

def wfElems (sub : Schema) : List Value → Bool
  | [] => true
  | e :: es => wfVal sub false e && wfElems sub es
termination_by es => sizeOf es

def wfMapVals (sub : Schema) : List (String × Value) → Bool
  | [] => true
  | (_, w) :: fs => wfVal sub false w && wfMapVals sub fs
termination_by fs => sizeOf fs
end

mutual
theorem roundtrip_fields : ∀ (s : Schema) (fields : List (String × Value)),
    wfFields s fields = true → from_boto s (to_boto s fields) = fields
  | s, [], _ => by rw [to_boto, from_boto]
  | s, (name, v) :: rest, h => by
    rw [wfFields] at h
    simp only [Bool.and_eq_true] at h
    obtain ⟨⟨⟨⟨⟨h1, h2⟩, h3⟩, h4⟩, h5⟩, h6⟩ := h
    have hnull : v.isNull = false := by
      rwa [Bool.not_eq_true'] at h4
    have hname : (s.customNames).lookup name = none :=
      Option.isNone_iff_eq_none.mp h2
    have hrev : reverseLookup (s.customNames) (to_camel_case name) = none :=
      Option.isNone_iff_eq_none.mp h3
    have hmn : memberNameOf s (to_camel_case name) = name := by
      rw [memberNameOf, hrev]
      exact name_roundtrip name h1
    rw [to_boto]
    rw [hnull]
    simp only [Bool.false_eq_true, if_false, hname]
    rw [from_boto]
    rw [hmn]
    rcases hty : (s.customTypes).lookup name with _ | ⟨sub, isColl⟩
    · show (name, v) :: from_boto s (to_boto s rest) = (name, v) :: rest
      rw [roundtrip_fields s rest h6]
    · rw [hty] at h5
      have h5a : wfVal sub isColl v = true := h5
      show (name, from_boto_value sub isColl (to_boto_value sub isColl v)) ::
          from_boto s (to_boto s rest) = (name, v) :: rest
      rw [roundtrip_val sub isColl v h5a, roundtrip_fields s rest h6]
termination_by s fields => sizeOf fields

theorem roundtrip_val : ∀ (sub : Schema) (isColl : Bool) (v : Value),
    wfVal sub isColl v = true →
    from_boto_value sub isColl (to_boto_value sub isColl v) = v
  | sub, false, v, h => by
    cases v with
    | obj fs =>
      rw [wfVal] at h
      simp only [Bool.false_eq_true, if_false] at h
      have e1 : to_boto_value sub false (Value.obj fs) =
          Value.obj (to_boto sub fs) := by
        rw [to_boto_value]
        simp
      have e2 : from_boto_value sub false (Value.obj (to_boto sub fs)) =
          Value.obj (from_boto sub (to_boto sub fs)) := by
        rw [from_boto_value]
        simp
      rw [e1, e2, roundtrip_fields sub fs h]
    | str a => simp [wfVal] at h
    | num a => simp [wfVal] at h
    | bool a => simp [wfVal] at h
    | null => simp [wfVal] at h
    | list es => simp [wfVal] at h
  | sub, true, v, h => by
    cases v with
    | list es =>
      rw [wfVal] at h
      simp only [if_true] at h
      have e1 : to_boto_value sub true (Value.list es) =
          Value.list (to_boto_elems sub es) := by
        rw [to_boto_value]
        simp
      have e2 : from_boto_value sub true (Value.list (to_boto_elems sub es)) =
          Value.list (from_boto_elems sub (to_boto_elems sub es)) := by
        rw [from_boto_value]
        simp
      rw [e1, e2, roundtrip_elems sub es h]
    | obj fs =>
      rw [wfVal] at h
      simp only [if_true] at h
      have e1 : to_boto_value sub true (Value.obj fs) =
          Value.obj (to_boto_mapvals sub fs) := by
        rw [to_boto_value]
        simp
      have e2 : from_boto_value sub true (Value.obj (to_boto_mapvals sub fs)) =
          Value.obj (from_boto_mapvals sub (to_boto_mapvals sub fs)) := by
        rw [from_boto_value]
        simp
      rw [e1, e2, roundtrip_mapvals sub fs h]
    | str a => simp [wfVal] at h
    | num a => simp [wfVal] at h
    | bool a => simp [wfVal] at h
    | null => simp [wfVal] at h
termination_by sub isColl v => sizeOf v

theorem roundtrip_elems : ∀ (sub : Schema) (es : List Value),
    wfElems sub es = true → from_boto_elems sub (to_boto_elems sub es) = es
  | sub, [], _ => by rw [to_boto_elems, from_boto_elems]
  | sub, e :: es, h => by
    rw [wfElems, Bool.and_eq_true] at h
    rw [to_boto_elems, from_boto_elems,
      roundtrip_val sub false e h.1, roundtrip_elems sub es h.2]
termination_by sub es => sizeOf es

theorem roundtrip_mapvals : ∀ (sub : Schema) (fs : List (String × Value)),
    wfMapVals sub fs = true →
    from_boto_mapvals sub (to_boto_mapvals sub fs) = fs
  | sub, [], _ => by rw [to_boto_mapvals, from_boto_mapvals]
  | sub, (k, w) :: fs, h => by
    rw [wfMapVals, Bool.and_eq_true] at h
    rw [to_boto_mapvals, from_boto_mapvals,
      roundtrip_val sub false w h.1, roundtrip_mapvals sub fs h.2]
termination_by sub fs => sizeOf fs
end

/-- C3 counterexample: the round trip fails on an object whose single field
holds a plain primitive value but has the (legal Python) member name `fooBar`:
outbound maps it to `FooBar`, inbound maps that back to `foo_bar`, so
`from_boto(to_boto(x)) ≠ x`.  (A `None`-valued field fails similarly, since
outbound skips it.) -/
theorem schema_roundtrip_counterexample :
    from_boto (Schema.mk [] []) (to_boto (Schema.mk [] [])
      [("fooBar", Value.num 1)]) ≠ [("fooBar", Value.num 1)] := by
  have h1 : to_camel_case "fooBar" = "FooBar" := rfl
  have h2 : from_camel_case "FooBar" = "foo_bar" := rfl
  have e1 : to_boto (Schema.mk [] []) [("fooBar", Value.num 1)] =
      [("FooBar", Value.num 1)] := by
    rw [to_boto, to_boto]
    simp [Value.isNull, Schema.customNames, Schema.customTypes, h1]
  have e2 : from_boto (Schema.mk [] []) [("FooBar", Value.num 1)] =
      [("foo_bar", Value.num 1)] := by
    rw [from_boto, from_boto]
    simp [memberNameOf, reverseLookup, Schema.customNames, Schema.customTypes,
      h2]
  intro hc
  rw [e1, e2] at hc
  simp only [List.cons.injEq, Prod.mk.injEq] at hc
  exact absurd hc.1.1 (by decide)

/-- C3 (corrected): for every `ApiObject` attribute dict whose member names
are well-formed snake_case identifiers untouched by the override tables and
whose values are non-`None` primitives or registered custom-typed values of
the matching shape (recursively so), converting outbound with `to_boto` and
back inbound with `from_boto` yields the original dict:
`from_boto(to_boto(x)) = x`. -/
theorem schema_roundtrip (s : Schema) (x : List (String × Value))
    (h : wfFields s x = true) : from_boto s (to_boto s x) = x :=
  roundtrip_fields s x h

def schemaA : Schema := Schema.mk [] []

def schemaB : Schema := Schema.mk [] [("test_type_a_value", schemaA, false)]

def sampleInner : List (String × Value) := [("some_value", Value.num 10)]

def sampleObj : List (String × Value) :=
  [("test_type_a_value", Value.obj sampleInner)]

theorem sample_wf : wfFields schemaB sampleObj = true := by
  have hin : wfFields schemaA sampleInner = true := by
    rw [sampleInner, wfFields]
    have lt : (schemaA.customTypes).lookup "some_value" = none := rfl
    rw [lt, wfFields]
    simp [snakeWF, schemaA, Schema.customNames, reverseLookup, Value.isNull]
    decide
  have hv : wfVal schemaA false (Value.obj sampleInner) = true := by
    rw [wfVal]
    simpa using hin
  rw [sampleObj, wfFields]
  have lt : (schemaB.customTypes).lookup "test_type_a_value" =
      some (schemaA, false) := rfl
  rw [lt, wfFields]
  simp only [hv]
  simp [snakeWF, schemaB, Schema.customNames, reverseLookup, Value.isNull]
  decide

/-- Concrete instance of `schema_roundtrip`: an object with one registered
custom-typed field holding a nested object with one primitive field. -/
theorem schema_roundtrip_witness :
    wfFields schemaB sampleObj = true ∧
    from_boto schemaB (to_boto schemaB sampleObj) = sampleObj :=
  ⟨sample_wf, schema_roundtrip schemaB sampleObj sample_wf⟩

/-- Outbound conversion of a single registered custom-typed value, as looked
up in the `_custom_boto_types` table. -/
def botoValueOf (s : Schema) (name : String) (v : Value) : Value :=
  match (s.customTypes).lookup name with
  | some (sub, isColl) => to_boto_value sub isColl v
  | none => v

theorem to_boto_cons (s : Schema) (name : String) (v : Value)
    (rest : List (String × Value)) :
    to_boto s ((name, v) :: rest) =
      if v.isNull then to_boto s rest
      else (botoNameOf s name, botoValueOf s name v) :: to_boto s rest := by
  rw [to_boto]
  rfl

/-- Outbound conversion is the per-field conversion of the non-`None`
fields, in order. -/
theorem to_boto_characterization (s : Schema) (fields : List (String × Value)) :
    to_boto s fields = (fields.filter (fun p => !p.2.isNull)).map
      (fun p => (botoNameOf s p.1, botoValueOf s p.1 p.2)) := by
  induction fields with
  | nil => rw [to_boto]; rfl
  | cons p rest ih =>
    obtain ⟨name, v⟩ := p
    rw [to_boto_cons, List.filter_cons]
    by_cases hv : v.isNull
    · rw [if_pos hv, ih]
      simp [hv]
    · rw [if_neg hv, ih]
      simp [hv]

/-- In a list with pairwise-distinct keys, a key determines its pair. -/
theorem eq_of_mem_of_pairwise_keys {l : List (String × Value)}
    (h : l.Pairwise (fun p q => p.1 ≠ q.1)) {a b : String × Value}
    (ha : a ∈ l) (hb : b ∈ l) (hk : a.1 = b.1) : a = b := by
  induction l with
  | nil => cases ha
  | cons x t ih =>
    rw [List.pairwise_cons] at h
    rcases List.mem_cons.mp ha with ha1 | ha1 <;>
      rcases List.mem_cons.mp hb with hb1 | hb1
    · rw [ha1, hb1]
    · subst ha1
      exact absurd hk (h.1 b hb1)
    · subst hb1
      exact absurd hk.symm (h.1 a ha1)
    · exact ih h.2 ha1 hb1

/-- C9: outbound conversion skips `None`-valued attributes: in an attribute
dict with distinct member names whose external names do not collide, every
attribute whose value is `None` is absent from the produced external dict (no
entry carries its external name), and every non-`None` attribute is present
under its external name with its converted value. -/
theorem to_boto_skips_none (s : Schema) (fields : List (String × Value))
    (hkeys : fields.Pairwise (fun p q => p.1 ≠ q.1))
    (hinj : ∀ p ∈ fields, ∀ q ∈ fields,
      botoNameOf s p.1 = botoNameOf s q.1 → p.1 = q.1)
    (name : String) (v : Value) (hmem : (name, v) ∈ fields) :
    (v.isNull = true → ∀ w, (botoNameOf s name, w) ∉ to_boto s fields) ∧
    (v.isNull = false →
      (botoNameOf s name, botoValueOf s name v) ∈ to_boto s fields) := by
  constructor
  · intro hv w hw
    rw [to_boto_characterization] at hw
    obtain ⟨p, hpf, hpe⟩ := List.mem_map.mp hw
    have hpfield := (List.mem_filter.mp hpf).1
    have hpnn := (List.mem_filter.mp hpf).2
    rw [Prod.mk.injEq] at hpe
    have hp1 : p.1 = name :=
      hinj p hpfield (name, v) hmem hpe.1
    have hpv : p = (name, v) :=
      eq_of_mem_of_pairwise_keys hkeys hpfield hmem hp1
    rw [hpv] at hpnn
    rw [hv] at hpnn
    simp at hpnn
  · intro hv
    rw [to_boto_characterization]
    exact List.mem_map_of_mem _ (List.mem_filter.mpr ⟨hmem, by simp [hv]⟩)

/-- Concrete instance of `to_boto_skips_none`: a dict with one real and one
`None`-valued attribute; the `None` attribute's external name `CD` is absent
and the other is present as `AB`. -/
theorem to_boto_skips_none_witness :
    ([("a_b", Value.num 1), ("c_d", Value.null)] :
      List (String × Value)).Pairwise (fun p q => p.1 ≠ q.1) ∧
    (∀ p ∈ ([("a_b", Value.num 1), ("c_d", Value.null)] :
        List (String × Value)),
      ∀ q ∈ ([("a_b", Value.num 1), ("c_d", Value.null)] :
        List (String × Value)),
      botoNameOf (Schema.mk [] []) p.1 = botoNameOf (Schema.mk [] []) q.1 →
        p.1 = q.1) ∧
    ("c_d", Value.null) ∈ ([("a_b", Value.num 1), ("c_d", Value.null)] :
      List (String × Value)) ∧
    ((Value.null.isNull = true →
       ∀ w, (botoNameOf (Schema.mk [] []) "c_d", w) ∉
         to_boto (Schema.mk [] []) [("a_b", Value.num 1), ("c_d", Value.null)]) ∧
     (Value.null.isNull = false →
       (botoNameOf (Schema.mk [] []) "c_d",
         botoValueOf (Schema.mk [] []) "c_d" Value.null) ∈
         to_boto (Schema.mk [] []) [("a_b", Value.num 1), ("c_d", Value.null)])) := by
  have hkeys : ([("a_b", Value.num 1), ("c_d", Value.null)] :
      List (String × Value)).Pairwise (fun p q => p.1 ≠ q.1) := by
    simp [List.pairwise_cons]
  have hinj : ∀ p ∈ ([("a_b", Value.num 1), ("c_d", Value.null)] :
      List (String × Value)),
      ∀ q ∈ ([("a_b", Value.num 1), ("c_d", Value.null)] :
        List (String × Value)),
      botoNameOf (Schema.mk [] []) p.1 = botoNameOf (Schema.mk [] []) q.1 →
        p.1 = q.1 := by
    intro p hp q hq
    fin_cases hp <;> fin_cases hq <;> decide
  have hmem : ("c_d", Value.null) ∈ ([("a_b", Value.num 1),
      ("c_d", Value.null)] : List (String × Value)) :=
    List.mem_cons_of_mem _ (List.mem_cons_self _ _)
  exact ⟨hkeys, hinj, hmem,
    to_boto_skips_none (Schema.mk [] []) _ hkeys hinj "c_d" Value.null hmem⟩

/-! ### ApiObject equality and hashing (`__eq__` / `__hash__`) -/

/-- Python equality of two objects of the same mapped class:
`self.__dict__ == other.__dict__` — the attribute dicts hold the same keys
with equal values (an `isinstance` check restricts `__eq__` to one class,
which the common attribute-dict type models). -/
def DictEq (d1 d2 : List (String × Value)) : Prop :=
  (∀ p ∈ d1, d2.lookup p.1 = some p.2) ∧
  (∀ p ∈ d2, d1.lookup p.1 = some p.2)

/-- Comparison used by `sorted(self.__dict__.items())`: Python compares the
pairs lexicographically, and on distinct keys this is comparison by key. -/
def keyLE (p q : String × Value) : Prop := p.1 ≤ q.1

instance : DecidableRel keyLE := fun p q =>
  inferInstanceAs (Decidable (p.1 ≤ q.1))

instance : IsTotal (String × Value) keyLE :=
  ⟨fun a b => le_total a.1 b.1⟩

instance : IsTrans (String × Value) keyLE :=
  ⟨fun _ _ _ h1 h2 => le_trans h1 h2⟩

def keyLT (p q : String × Value) : Prop := p.1 < q.1

instance : IsAntisymm (String × Value) keyLT :=
  ⟨fun _ _ h1 h2 => absurd h1 (lt_asymm h2)⟩

/-- The sorted item list of `hash(tuple(sorted(self.__dict__.items())))`. -/
def sortPairs (d : List (String × Value)) : List (String × Value) :=
  d.insertionSort keyLE

/-- Python `__hash__`: some hash `H` of the tuple of sorted attribute
name/value pairs.  The contract holds for every `H`, so the tuple hash is
abstract. -/
def pyHash (H : List (String × Value) → ℕ) (d : List (String × Value)) : ℕ :=
  H (sortPairs d)

theorem lookup_eq_some_of_mem {l : List (String × Value)}
    (h : l.Pairwise (fun p q => p.1 ≠ q.1)) {p : String × Value} (hp : p ∈ l) :
    l.lookup p.1 = some p.2 := by
  induction l with
  | nil => cases hp
  | cons x t ih =>
    rw [List.pairwise_cons] at h
    rcases List.mem_cons.mp hp with hp1 | hp1
    · subst hp1
      obtain ⟨k, v⟩ := p
      simp [List.lookup]
    · obtain ⟨k, v⟩ := x
      have hne : k ≠ p.1 := h.1 p hp1
      have hb : (p.1 == k) = false := beq_eq_false_iff_ne.mpr (Ne.symm hne)
      simp [List.lookup, hb]
      exact ih h.2 hp1

theorem mem_of_lookup_eq_some {l : List (String × Value)} {k : String}
    {v : Value} (h : l.lookup k = some v) : (k, v) ∈ l := by
  induction l with
  | nil => simp [List.lookup] at h
  | cons x t ih =>
    obtain ⟨a, b⟩ := x
    by_cases hab : (k == a) = true
    · have hk : k = a := by simpa using hab
      subst hk
      simp [List.lookup] at h
      simp [h]
    · have hb : (k == a) = false := by
        rw [Bool.not_eq_true] at hab
        exact hab
      simp [List.lookup, hb] at h
      exact List.mem_cons_of_mem _ (ih h)

theorem lookup_eq_none_of_keys_ne {l : List (String × Value)} {k : String}
    (h : ∀ p ∈ l, p.1 ≠ k) : l.lookup k = none := by
  induction l with
  | nil => rfl
  | cons x t ih =>
    obtain ⟨a, b⟩ := x
    have hne : a ≠ k := h (a, b) (List.mem_cons_self _ _)
    have hb : (k == a) = false := beq_eq_false_iff_ne.mpr (Ne.symm hne)
    have ht := ih fun p hp => h p (List.mem_cons_of_mem _ hp)
    simp [List.lookup, hb, ht]

theorem lookup_middle_ne (y1 y2 : List (String × Value)) (k a : String)
    (v : Value) (hne : k ≠ a) :
    (y1 ++ (k, v) :: y2).lookup a = (y1 ++ y2).lookup a := by
  induction y1 with
  | nil =>
    have hb : (a == k) = false := beq_eq_false_iff_ne.mpr (Ne.symm hne)
    simp [List.lookup, hb]
  | cons p r ih =>
    obtain ⟨c, w⟩ := p
    by_cases hc : (a == c) = true
    · simp [List.lookup, hc]
    · have hb : (a == c) = false := by
        rw [Bool.not_eq_true] at hc
        exact hc
      simp [List.lookup, hb]
      exact ih

/-- Two attribute dicts with distinct keys and the same lookup function are
permutations of each other. -/
theorem perm_of_lookup_ext : ∀ (x y : List (String × Value)),
    x.Pairwise (fun p q => p.1 ≠ q.1) → y.Pairwise (fun p q => p.1 ≠ q.1) →
    (∀ k, x.lookup k = y.lookup k) → List.Perm x y
  | [], y, _, hy, hext => by
    cases y with
    | nil => exact List.Perm.refl []
    | cons p t =>
      obtain ⟨a, b⟩ := p
      have h1 := hext a
      simp [List.lookup] at h1
  | (k, v) :: t, y, hx, hy, hext => by
    rw [List.pairwise_cons] at hx
    have hk : y.lookup k = some v := by
      rw [← hext k]
      simp [List.lookup]
    obtain ⟨y1, y2, hdec⟩ := List.append_of_mem (mem_of_lookup_eq_some hk)
    subst hdec
    have hmid : List.Perm (y1 ++ (k, v) :: y2) ((k, v) :: (y1 ++ y2)) :=
      List.perm_middle
    have hy12 : (y1 ++ y2).Pairwise (fun p q => p.1 ≠ q.1) :=
      hy.sublist ((List.sublist_cons_self (k, v) y2).append_left y1)
    have hyk : ∀ p ∈ y1 ++ y2, p.1 ≠ k := by
      rw [List.pairwise_append] at hy
      intro p hp
      rcases List.mem_append.mp hp with hp1 | hp1
      · exact fun hc => hy.2.2 p hp1 (k, v) (List.mem_cons_self _ _) hc
      · have := List.pairwise_cons.mp hy.2.1
        exact fun hc => this.1 p hp1 hc.symm
    have hext2 : ∀ a, t.lookup a = (y1 ++ y2).lookup a := by
      intro a
      by_cases hak : a = k
      · subst hak
        rw [lookup_eq_none_of_keys_ne hyk,
          lookup_eq_none_of_keys_ne fun p hp hc => hx.1 p hp hc.symm]
      · have hstep : ((k, v) :: t).lookup a = t.lookup a := by
          have hb : (a == k) = false := beq_eq_false_iff_ne.mpr hak
          simp [List.lookup, hb]
        rw [← hstep, hext a, lookup_middle_ne y1 y2 k a v (Ne.symm hak)]
    exact (List.Perm.cons (k, v)
      (perm_of_lookup_ext t (y1 ++ y2) hx.2 hy12 hext2)).trans hmid.symm
termination_by x _ _ _ _ => x.length

/-- Sorting by key is a function of the dict contents, not of insertion
order, when keys are distinct. -/
theorem sortPairs_eq_of_perm {x y : List (String × Value)}
    (hx : x.Pairwise (fun p q => p.1 ≠ q.1)) (hperm : List.Perm x y) :
    sortPairs x = sortPairs y := by
  have p1 : List.Perm (sortPairs x) x := List.perm_insertionSort keyLE x
  have p2 : List.Perm (sortPairs y) y := List.perm_insertionSort keyLE y
  have hsym : ∀ {p q : String × Value}, p.1 ≠ q.1 → q.1 ≠ p.1 :=
    fun h => h.symm
  have hx2 : (sortPairs x).Pairwise (fun p q => p.1 ≠ q.1) :=
    (p1.pairwise_iff hsym).mpr hx
  have hy2 : (sortPairs y).Pairwise (fun p q => p.1 ≠ q.1) :=
    (p2.pairwise_iff hsym).mpr ((hperm.pairwise_iff hsym).mp hx)
  have s1 : (sortPairs x).Sorted keyLE := List.sorted_insertionSort keyLE x
  have s2 : (sortPairs y).Sorted keyLE := List.sorted_insertionSort keyLE y
  have st1 : (sortPairs x).Pairwise keyLT :=
    (s1.and hx2).imp fun h => lt_of_le_of_ne h.1 h.2
  have st2 : (sortPairs y).Pairwise keyLT :=
    (s2.and hy2).imp fun h => lt_of_le_of_ne h.1 h.2
  exact List.eq_of_perm_of_sorted (p1.trans (hperm.trans p2.symm)) st1 st2

/-- C10: equality and hashing contract of `ApiObject`: for attribute dicts
with distinct member names, two objects are equal exactly when every attribute
compares equal (the lookups agree everywhere); equality implies equal hashes;
and the hash — any function `H` of the sorted attribute name/value pairs — is
independent of attribute insertion order. -/
theorem apiobject_eq_hash_contract (x y : List (String × Value))
    (hx : x.Pairwise (fun p q => p.1 ≠ q.1))
    (hy : y.Pairwise (fun p q => p.1 ≠ q.1)) :
    (DictEq x y ↔ ∀ k, x.lookup k = y.lookup k) ∧
    (DictEq x y → ∀ H, pyHash H x = pyHash H y) ∧
    (List.Perm x y → ∀ H, pyHash H x = pyHash H y) := by
  have hiff : DictEq x y ↔ ∀ k, x.lookup k = y.lookup k := by
    constructor
    · rintro ⟨h1, h2⟩ k
      rcases hxk : x.lookup k with _ | v
      · rcases hyk : y.lookup k with _ | w
        · rfl
        · have := h2 (k, w) (mem_of_lookup_eq_some hyk)
          rw [hxk] at this
          cases this
      · have := h1 (k, v) (mem_of_lookup_eq_some hxk)
        rw [this]
    · intro hext
      constructor
      · intro p hp
        rw [← hext p.1]
        exact lookup_eq_some_of_mem hx hp
      · intro p hp
        rw [hext p.1]
        exact lookup_eq_some_of_mem hy hp
  have hhash : List.Perm x y → ∀ H, pyHash H x = pyHash H y := by
    intro hperm H
    unfold pyHash
    rw [sortPairs_eq_of_perm hx hperm]
  exact ⟨hiff, fun hde H =>
    hhash (perm_of_lookup_ext x y hx hy (hiff.mp hde)) H, hhash⟩

/-- Concrete instance of `apiobject_eq_hash_contract`: the same two attributes
inserted in either order. -/
theorem apiobject_eq_hash_contract_witness :
    ([("a", Value.num 1), ("b", Value.str "z")] :
      List (String × Value)).Pairwise (fun p q => p.1 ≠ q.1) ∧
    ([("b", Value.str "z"), ("a", Value.num 1)] :
      List (String × Value)).Pairwise (fun p q => p.1 ≠ q.1) ∧
    ((DictEq [("a", Value.num 1), ("b", Value.str "z")]
        [("b", Value.str "z"), ("a", Value.num 1)] ↔
      ∀ k, ([("a", Value.num 1), ("b", Value.str "z")] :
          List (String × Value)).lookup k =
        ([("b", Value.str "z"), ("a", Value.num 1)] :
          List (String × Value)).lookup k) ∧
     (DictEq [("a", Value.num 1), ("b", Value.str "z")]
        [("b", Value.str "z"), ("a", Value.num 1)] →
       ∀ H, pyHash H [("a", Value.num 1), ("b", Value.str "z")] =
         pyHash H [("b", Value.str "z"), ("a", Value.num 1)]) ∧
     (List.Perm [("a", Value.num 1), ("b", Value.str "z")]
        [("b", Value.str "z"), ("a", Value.num 1)] →
       ∀ H, pyHash H [("a", Value.num 1), ("b", Value.str "z")] =
         pyHash H [("b", Value.str "z"), ("a", Value.num 1)])) := by
  have hx : ([("a", Value.num 1), ("b", Value.str "z")] :
      List (String × Value)).Pairwise (fun p q => p.1 ≠ q.1) := by
    simp [List.pairwise_cons]
  have hy : ([("b", Value.str "z"), ("a", Value.num 1)] :
      List (String × Value)).Pairwise (fun p q => p.1 ≠ q.1) := by
    simp [List.pairwise_cons]
  exact ⟨hx, hy, apiobject_eq_hash_contract _ _ hx hy⟩

end SMExperiments
